import Mathlib

/-!
Shallow embedding of the content-normalization core of vargram-bot
(src/vargram_bot/model.py): mail items grouped into threads, subreddit
posts, RSS feed articles, and their text/HTML renderings.

Python strings are modelled as lists of characters (`Str`).  Python dicts
(insertion-ordered) are modelled as association lists in insertion order.
Operations that can raise a TypeError at runtime are modelled with an
`Option` result (`none` = the call raises); all other operations are total
functions, mirroring the absence of exceptions in the source.
-/

/-- Python strings as lists of characters. -/
abbrev Str := List Char

/-- Coerce a Lean string literal to the character-list model. -/
def str (s : String) : Str := s.toList

/-- Index of the first occurrence of the character `]`, as computed by
Python `subject.index(']')` (`none` models the `ValueError` branch). -/
def idxOfBracket : Str → Option Nat
  | [] => none
  | c :: rest => if c = ']' then some 0 else (idxOfBracket rest).map (· + 1)

/-- `Mail.__sanitize_subject`: `subject[subject.index(']')+2:]`, falling back
to the unchanged subject when `]` is absent (the bare `except:` branch).
Python slicing past the end yields the empty string, as `List.drop` does. -/
def sanitize_subject (subject : Str) : Str :=
  match idxOfBracket subject with
  | some i => subject.drop (i + 2)
  | none => subject

/-- An email of the `Mail` class: sanitized subject, author, reference url. -/
structure Mail where
  subject : Str
  author : Str
  url : Str
deriving DecidableEq

/-- `Mail.__init__`: the stored subject is the sanitized raw subject. -/
def Mail.make (subject author url : Str) : Mail :=
  ⟨sanitize_subject subject, author, url⟩

/-- `Threads.thread`: a Python dict from sanitized subject to the list of
mails, in key-insertion order. -/
abbrev Threads := List (Str × List Mail)

/-- Dict lookup `self.thread[subject]` (first matching key). -/
def lookupSubj : Threads → Str → Option (List Mail)
  | [], _ => none
  | kv :: rest, s => if kv.1 = s then some kv.2 else lookupSubj rest s

/-- In-place mutation of the list stored under a key (`emails.append(email)`
mutates the dict value without moving the key). -/
def updateSubj : Threads → Str → List Mail → Threads
  | [], _, _ => []
  | kv :: rest, s, w => if kv.1 = s then (kv.1, w) :: rest else kv :: updateSubj rest s w

/-- `Threads.append`: reject when a mail with the same url is already stored
under the same sanitized subject (`Mail.__eq__` compares urls); otherwise
append at the end of the subject list, creating the key (at the end of the
dict order) when new.  Returns the Python boolean result and the new state. -/
def Threads.append (t : Threads) (m : Mail) : Bool × Threads :=
  match lookupSubj t m.subject with
  | some v =>
      if ∃ x ∈ v, x.url = m.url then (false, t)
      else (true, updateSubj t m.subject (v ++ [m]))
  | none => (true, t ++ [(m.subject, [m])])

/-- `Threads.count_threads`: `len(self.thread)`. -/
def Threads.count_threads (t : Threads) : Nat := t.length

/-- `Threads.count_mails`: sum of the lengths of all subject lists. -/
def Threads.count_mails (t : Threads) : Nat :=
  (t.map (fun kv => kv.2.length)).sum

/-- One item line of `Threads.__str__`: `'\t{} - <{}>\n'.format(author, url)`. -/
def mailTextLine (m : Mail) : Str :=
  str "\t" ++ m.author ++ str " - <" ++ m.url ++ str ">\n"

/-- `Threads.__str__` (render_text): subjects in reverse insertion order,
items in reverse append order, one block per subject closed by a blank line. -/
def Threads.render_text (t : Threads) : Str :=
  (t.reverse.map (fun kv =>
    kv.1 ++ str ":\n" ++ (kv.2.reverse.map mailTextLine).flatten ++ str "\n")).flatten

/-- `html.escape` of a single character (quote=True default): the five
sequential replacements amount to this per-character expansion. -/
def escapeChar (c : Char) : Str :=
  if c = '&' then str "&amp;"
  else if c = '<' then str "&lt;"
  else if c = '>' then str "&gt;"
  else if c = '"' then str "&quot;"
  else if c = '\'' then str "&#x27;"
  else [c]

/-- `html.escape` on a whole string. -/
def htmlEscape (s : Str) : Str := (s.map escapeChar).flatten

/-- One item line of `Threads.html`:
`'    <a href="{}">{}</a>\n'.format(url, html.escape(author))`. -/
def mailHtmlLine (m : Mail) : Str :=
  str "    <a href=\"" ++ m.url ++ str "\">" ++ htmlEscape m.author ++ str "</a>\n"

/-- `Threads.html`: same traversal as `render_text`; `cap` is the
`capitalize_no_sym` helper imported from `vargram_bot.util` (not part of the
core model, so the renderer is parametrized by it) and `dash` is the
decorative glyph resolved from the optional emoji capability (`-` fallback). -/
def Threads.html (cap : Str → Str) (dash : Str) (t : Threads) : Str :=
  (t.reverse.map (fun kv =>
    dash ++ str " <b>" ++ cap kv.1 ++ str "</b>\n"
      ++ (kv.2.reverse.map mailHtmlLine).flatten)).flatten

/-- Fold a list of mails into a threads state with repeated `append`,
keeping only the state (`.2`). -/
def appendList (t : Threads) (l : List Mail) : Threads :=
  l.foldl (fun acc m => (Threads.append acc m).2) t

/-- `Mail.__repr__`: `'Mail(subject, author, url)'` (total: all parts are
strings, so the join cannot fail). -/
def Mail.reprStr (m : Mail) : Str :=
  str "Mail(" ++ m.subject ++ str ", " ++ m.author ++ str ", " ++ m.url ++ str ")"

/-- `Mail.__str__`: the f-string with a backslash line continuation, which
splices eight literal spaces before the url. -/
def Mail.strStr (m : Mail) : Str :=
  str "Subject: " ++ m.subject ++ str "\n\tAuthor: " ++ m.author
    ++ str "\n\tURL: " ++ str "        " ++ m.url

/-- Python `sep.join(parts)`: parts interleaved with the separator. -/
def joinSep (sep : Str) : List Str → Str
  | [] => []
  | [x] => x
  | x :: y :: rest => x ++ sep ++ joinSep sep (y :: rest)

/-- A subreddit post.  `commentsField` is the private `__comments`
attribute as assigned by `Post.__init__`. -/
structure Post where
  title : Str
  url : Str
  is_self : Bool
  commentsField : Option Str
deriving DecidableEq

/-- `Post.__init__`: `__comments` is `None` for self posts and the post url
otherwise.  The `comments` constructor argument is accepted but never read
by the source, so it does not influence the state. -/
def Post.make (title url : Str) (is_self : Bool) (comments : Option Str) : Post :=
  ⟨title, url, is_self, if is_self then none else some url⟩

/-- The `Post.comments` property: `self.__comments or None`, which collapses
a falsy stored value (None or the empty string) to `None`. -/
def Post.comments (p : Post) : Option Str :=
  match p.commentsField with
  | none => none
  | some c => if c = [] then none else some c

/-- `Post.html`: escaped title as anchor text; parenthetical comments link
only when the `comments` property is truthy. -/
def Post.html (p : Post) : Str :=
  str "<a href=\"" ++ p.url ++ str "\">" ++ htmlEscape p.title ++ str "</a>"
    ++ (match p.comments with
        | some c => str " (<a href=\"" ++ c ++ str "\">comments</a>)"
        | none => [])

/-- `Post.__repr__`: `', '.join((title, url, comments))` raises a TypeError
when the `comments` property is `None`; `none` models that exception. -/
def Post.reprStr (p : Post) : Option Str :=
  (p.comments).map (fun c =>
    str "Post(" ++ p.title ++ str ", " ++ p.url ++ str ", " ++ c ++ str ")")

/-- Python `str` formatting of an optional string (`None` prints as "None"). -/
def optFormat : Option Str → Str
  | none => str "None"
  | some c => c

/-- `Post.__str__`: an f-string (with the same backslash continuation as
`Mail.__str__`); formatting `None` is total in Python. -/
def Post.strStr (p : Post) : Str :=
  str "Title: " ++ p.title ++ str "\n\tURL: " ++ p.url
    ++ str "\n\tComments: " ++ str "        " ++ optFormat p.comments

/-- A subreddit: a name and the insertion-ordered list of posts. -/
structure Subreddit where
  name : Str
  subreddit : List Post
deriving DecidableEq

/-- `Subreddit.append`: unconditional append at the end. -/
def Subreddit.append (s : Subreddit) (p : Post) : Subreddit :=
  ⟨s.name, s.subreddit ++ [p]⟩

/-- `Subreddit.html`: `'\n'.join(...)` over the posts in stored (insertion)
order — the comprehension `for el in self.subreddit` does not reverse. -/
def Subreddit.html (dash : Str) (s : Subreddit) : Str :=
  joinSep (str "\n") (s.subreddit.map (fun p => dash ++ str " " ++ p.html))

/-- `Subreddit.__str__`: `'\n'.join([i for i in self.subreddit])` feeds
`Post` objects (not strings) to `str.join`, so it raises a TypeError as soon
as the list is non-empty; the empty join returns the empty string. -/
def Subreddit.strE (s : Subreddit) : Option Str :=
  match s.subreddit with
  | [] => some []
  | _ => none

/-- `repr` of each post of a list, propagating the `Post.__repr__` failure. -/
def postReprList : List Post → Option (List Str)
  | [] => some []
  | p :: rest =>
      match p.reprStr, postReprList rest with
      | some r, some rs => some (r :: rs)
      | _, _ => none

/-- `Subreddit.__repr__`: `repr(self.subreddit)`, which calls `Post.__repr__`
on every element and therefore raises whenever one of them does. -/
def Subreddit.reprE (s : Subreddit) : Option Str :=
  (postReprList s.subreddit).map (fun rs =>
    str "[" ++ joinSep (str ", ") rs ++ str "]")

/-- A `time.struct_time` restricted to the fields the renderers read. -/
structure StructTime where
  year : Nat
  month : Nat
  day : Nat
  hour : Nat
  minute : Nat
  sec : Nat
deriving DecidableEq

/-- Two-digit zero-padded decimal field, as produced by `strftime`. -/
def pad2 (n : Nat) : Str :=
  [Nat.digitChar (n / 10 % 10), Nat.digitChar (n % 10)]

/-- `time.strftime('%d/%m/%y %H:%M', d)`. -/
def strftimeHM (d : StructTime) : Str :=
  pad2 d.day ++ str "/" ++ pad2 d.month ++ str "/" ++ pad2 (d.year % 100)
    ++ str " " ++ pad2 d.hour ++ str ":" ++ pad2 d.minute

/-- `time.strftime('%d/%m/%y %H:%M:%S', d)`. -/
def strftimeHMS (d : StructTime) : Str :=
  strftimeHM d ++ str ":" ++ pad2 d.sec

/-- An RSS article. -/
structure Article where
  title : Str
  description : Str
  url : Str
  date : StructTime
deriving DecidableEq

/-- `Article.__repr__`: joins four strings — total. -/
def Article.reprStr (a : Article) : Str :=
  str "Article(" ++ a.title ++ str ", " ++ a.description ++ str ", "
    ++ a.url ++ str ", " ++ strftimeHMS a.date ++ str ")"

/-- `Article.__str__`: note the source passes `(url, title, description,
date)` to a format whose labels read Title/Description/URL — the url is
printed under the Title label, faithfully reproduced here. -/
def Article.strStr (a : Article) : Str :=
  str "Title: " ++ a.url ++ str "\n\tDescription: " ++ a.title
    ++ str "\n\tURL: " ++ a.description ++ str "\n\tDate: " ++ strftimeHMS a.date

/-- `Article.html`: the title is spliced verbatim (no `html.escape`). -/
def Article.html (a : Article) : Str :=
  str "<a href=\"" ++ a.url ++ str "\">" ++ a.title ++ str "</a>\n    ⌚ "
    ++ strftimeHM a.date

/-- An RSS feed: a title and the insertion-ordered list of articles. -/
structure Feed where
  title : Str
  feed : List Article
deriving DecidableEq

/-- `Feed.append`: unconditional append at the end. -/
def Feed.append (f : Feed) (a : Article) : Feed :=
  ⟨f.title, f.feed ++ [a]⟩

/-- `Feed.html`: `'\n'.join(...)` over the articles in stored (insertion)
order — no reversal. -/
def Feed.html (dash : Str) (f : Feed) : Str :=
  joinSep (str "\n") (f.feed.map (fun a => dash ++ str " " ++ a.html))

/-- `Feed.__str__`: like `Subreddit.__str__`, joins `Article` objects and
raises a TypeError unless the feed is empty. -/
def Feed.strE (f : Feed) : Option Str :=
  match f.feed with
  | [] => some []
  | _ => none

/-- `Feed.__repr__`: `repr(self.feed)` — total, since `Article.__repr__` is. -/
def Feed.reprStr (f : Feed) : Str :=
  str "[" ++ joinSep (str ", ") (f.feed.map Article.reprStr) ++ str "]"

/-- Fold posts into a subreddit with repeated `append`. -/
def appendPosts (s : Subreddit) (l : List Post) : Subreddit :=
  l.foldl Subreddit.append s

/-- Fold articles into a feed with repeated `append`. -/
def appendArticles (f : Feed) (l : List Article) : Feed :=
  l.foldl Feed.append f

/-- Spec-side rendering of a subreddit for comparison with the code: the
spec says `render_html()` visits posts in reverse insertion order, so this
definition follows the spec words, not the source. -/
def subredditHtmlSpecReversed (dash : Str) (s : Subreddit) : Str :=
  joinSep (str "\n") (s.subreddit.reverse.map (fun p => dash ++ str " " ++ p.html))

/-- Spec-side rendering of a feed for comparison with the code: reverse
insertion order, following the spec words. -/
def feedHtmlSpecReversed (dash : Str) (f : Feed) : Str :=
  joinSep (str "\n") (f.feed.reverse.map (fun a => dash ++ str " " ++ a.html))

/-! ## Basic lemmas -/

lemma appendPosts_subreddit (s : Subreddit) (l : List Post) :
    (appendPosts s l).subreddit = s.subreddit ++ l := by
  induction l generalizing s with
  | nil => simp [appendPosts]
  | cons p rest ih =>
      show (appendPosts (s.append p) rest).subreddit = _
      rw [ih]
      simp [Subreddit.append]

lemma appendArticles_feed (f : Feed) (l : List Article) :
    (appendArticles f l).feed = f.feed ++ l := by
  induction l generalizing f with
  | nil => simp [appendArticles]
  | cons a rest ih =>
      show (appendArticles (f.append a) rest).feed = _
      rw [ih]
      simp [Feed.append]

lemma post_reprStr_eq_none (p : Post) : p.reprStr = none ↔ p.comments = none := by
  rcases hc : p.comments with _ | c <;> simp [Post.reprStr, hc]

lemma postReprList_eq_none (l : List Post) :
    postReprList l = none ↔ ∃ p ∈ l, p.comments = none := by
  induction l with
  | nil => simp [postReprList]
  | cons p rest ih =>
      have key : postReprList (p :: rest) = none
          ↔ (p.reprStr = none ∨ postReprList rest = none) := by
        rcases h1 : p.reprStr with _ | r <;> rcases h2 : postReprList rest with _ | rs <;>
          simp [postReprList, h1, h2]
      rw [key, post_reprStr_eq_none, ih]
      constructor
      · rintro (h | ⟨q, hq, hqr⟩)
        · exact ⟨p, List.mem_cons_self p rest, h⟩
        · exact ⟨q, List.mem_cons_of_mem _ hq, hqr⟩
      · rintro ⟨q, hq, hqr⟩
        rcases List.mem_cons.mp hq with rfl | hq2
        · exact Or.inl hqr
        · exact Or.inr ⟨q, hq2, hqr⟩

/-! ## Concrete values for the closed claims -/

/-- The first mail of the end-to-end scenario of the spec (§8.7). -/
def c1mail1 : Mail := Mail.make (str "[Dev] Build broke") (str "alice") (str "http://list/msg/1")

/-- The second mail of the scenario: its subject has no `]`, so it
sanitizes to itself. -/
def c1mail2 : Mail := Mail.make (str "Re: Build broke") (str "bob") (str "http://list/msg/2")

/-- The third mail: a duplicate of the first (same url, different author). -/
def c1mail3 : Mail := Mail.make (str "[Dev] Build broke") (str "carol") (str "http://list/msg/1")

/-- Two distinct non-self posts for the ordering scenarios. -/
def c3post1 : Post := Post.make (str "p1") (str "http://a") false none

/-- Second post, appended after `c3post1`. -/
def c3post2 : Post := Post.make (str "p2") (str "http://b") false none

/-- Two distinct articles for the feed ordering scenario. -/
def c3art1 : Article := ⟨str "a1", str "d1", str "http://x", ⟨2017, 4, 1, 10, 0, 0⟩⟩

/-- Second article, appended after `c3art1`. -/
def c3art2 : Article := ⟨str "a2", str "d2", str "http://y", ⟨2017, 4, 2, 11, 5, 0⟩⟩

/-! ## Claims -/

/-- C1 (counterexample): in the end-to-end scenario the collection holds
two sanitized-subject groups, not one — `"Re: Build broke"` contains no `]`
and sanitizes to itself, which differs from `"Build broke"` — so the claimed
`count_threads() == 1` is false. -/
theorem threads_scenario_count_threads_ne_one :
    ¬ Threads.count_threads (appendList [] [c1mail1, c1mail2, c1mail3]) = 1 := by
  decide

/-- C1 (amended): the scenario yields `count_threads() == 2`,
`count_mails() == 2`, and the third (duplicate) append returns `false`. -/
theorem threads_scenario_amended :
    Threads.count_threads (appendList [] [c1mail1, c1mail2, c1mail3]) = 2
      ∧ Threads.count_mails (appendList [] [c1mail1, c1mail2, c1mail3]) = 2
      ∧ (Threads.append (appendList [] [c1mail1, c1mail2]) c1mail3).1 = false := by
  refine ⟨by decide, by decide, by decide⟩

/-- C2 (code evaluation at the failing input): `Post.__init__` never reads
its `comments` argument, so a non-self post constructed with a distinct
comments link still reports its own url as the comments target, contradicting
the constructor docstring and the claim. -/
theorem post_ignores_supplied_comments_link :
    (Post.make (str "t") (str "http://u") false (some (str "http://c"))).comments
        = some (str "http://u")
      ∧ (Post.make (str "t") (str "http://u") false (some (str "http://c"))).comments
        ≠ some (str "http://c") := by
  refine ⟨by decide, by decide⟩

/-- C3 (counterexample): the source iterates `for el in self.subreddit`
(resp. `self.feed`) without reversing, so the rendering disagrees with the
spec-side reverse-order rendering as soon as two distinct elements are
appended. -/
theorem render_html_not_reverse_order :
    Subreddit.html (str "-") (appendPosts ⟨str "r", []⟩ [c3post1, c3post2])
        ≠ subredditHtmlSpecReversed (str "-") (appendPosts ⟨str "r", []⟩ [c3post1, c3post2])
      ∧ Feed.html (str "-") (appendArticles ⟨str "f", []⟩ [c3art1, c3art2])
        ≠ feedHtmlSpecReversed (str "-") (appendArticles ⟨str "f", []⟩ [c3art1, c3art2]) := by
  refine ⟨by decide, by decide⟩

/-- C3 (amended): for every sequence of appends to a fresh `Subreddit` or
`Feed`, `render_html()` lists the appended elements in forward insertion
order — the first-appended element appears first and the most recently
appended appears last. -/
theorem render_html_forward_insertion_order (dash name : Str)
    (posts : List Post) (arts : List Article) :
    Subreddit.html dash (appendPosts ⟨name, []⟩ posts)
        = joinSep (str "\n") (posts.map (fun p => dash ++ str " " ++ p.html))
      ∧ Feed.html dash (appendArticles ⟨name, []⟩ arts)
        = joinSep (str "\n") (arts.map (fun a => dash ++ str " " ++ a.html)) := by
  constructor
  · simp [Subreddit.html, appendPosts_subreddit]
  · simp [Feed.html, appendArticles_feed]

/-- C9 (counterexample): valid inputs on which core operations raise a
`TypeError`: `Subreddit.__str__` joins `Post` objects as soon as the list is
non-empty, and `Post.__repr__` joins the `None` comments of a self post. -/
theorem core_operations_raise_counterexample :
    Subreddit.strE ⟨str "r", [c3post1]⟩ = none
      ∧ Post.reprStr (Post.make (str "t") (str "u") true none) = none := by
  refine ⟨by decide, by decide⟩

/-- C9 (amended): every core operation is exception-free except exactly
these: `Post.__repr__` raises precisely when the `comments` property is
`None`; `Subreddit.__str__` and `Feed.__str__` raise precisely when the
collection is non-empty; `Subreddit.__repr__` raises precisely when some
stored post has `None` comments.  (All remaining operations are embedded as
total functions, mirroring their exception-free Python code paths.) -/
theorem core_partiality_characterization :
    (∀ p : Post, p.reprStr = none ↔ p.comments = none)
      ∧ (∀ s : Subreddit, s.strE = none ↔ s.subreddit ≠ [])
      ∧ (∀ f : Feed, f.strE = none ↔ f.feed ≠ [])
      ∧ (∀ s : Subreddit, s.reprE = none ↔ ∃ p ∈ s.subreddit, p.comments = none) := by
  refine ⟨?_, ?_, ?_, ?_⟩
  · intro p
    rcases hc : p.comments with _ | c <;> simp [Post.reprStr, hc]
  · intro s
    rcases hs : s.subreddit with _ | ⟨p, rest⟩ <;> simp [Subreddit.strE, hs]
  · intro f
    rcases hf : f.feed with _ | ⟨a, rest⟩ <;> simp [Feed.strE, hf]
  · intro s
    rcases hr : postReprList s.subreddit with _ | rs
    · simp [Subreddit.reprE, hr]
      exact (postReprList_eq_none _).mp hr
    · simp [Subreddit.reprE, hr]
      intro p hp hpc
      exact absurd ((postReprList_eq_none _).mpr ⟨p, hp, hpc⟩) (by simp [hr])

lemma idxOfBracket_eq_none_iff (s : Str) : idxOfBracket s = none ↔ ']' ∉ s := by
  induction s with
  | nil => simp [idxOfBracket]
  | cons c rest ih =>
      by_cases hc : c = ']'
      · subst hc
        simp [idxOfBracket]
      · rcases h : idxOfBracket rest with _ | i <;>
          simp [idxOfBracket, hc, Ne.symm hc, h, ← ih]

lemma idxOfBracket_append (a b : Str) (ha : ']' ∉ a) :
    idxOfBracket (a ++ ']' :: b) = some a.length := by
  induction a with
  | nil => simp [idxOfBracket]
  | cons c rest ih =>
      have hc : ¬ c = ']' := fun h => ha (h ▸ List.mem_cons_self c rest)
      have hrest : ']' ∉ rest := fun h => ha (List.mem_cons_of_mem c h)
      simp [idxOfBracket, hc, ih hrest]

lemma drop_append_length (a t : Str) (k : Nat) :
    (a ++ t).drop (a.length + k) = t.drop k := by
  induction a with
  | nil => simp
  | cons c rest ih => simp [Nat.succ_add, ih]

/-- C6: `sanitize` is total (the embedding is a plain function, mirroring the
`try`/`except` totality of the source); on a subject decomposed as
`a ++ ']' :: b` with no `]` in `a` — i.e. whose first `]` follows `a` — it
returns the substring starting two characters after that first `]` (possibly
empty); on a subject with no `]` it returns the input unchanged; and
`sanitize("[Group] Hello") = "Hello"`. -/
theorem sanitize_subject_characterization :
    (∀ s : Str, ']' ∉ s → sanitize_subject s = s)
      ∧ (∀ a b : Str, ']' ∉ a → sanitize_subject (a ++ ']' :: b) = b.drop 1)
      ∧ sanitize_subject (str "[Group] Hello") = str "Hello" := by
  refine ⟨?_, ?_, by decide⟩
  · intro s hs
    unfold sanitize_subject
    rw [(idxOfBracket_eq_none_iff s).mpr hs]
  · intro a b ha
    unfold sanitize_subject
    rw [idxOfBracket_append a b ha]
    show (a ++ ']' :: b).drop (a.length + 2) = b.drop 1
    rw [drop_append_length]
    rfl

/-- C6 (witness): the characterization applied to concrete subjects. -/
theorem sanitize_subject_characterization_witness :
    sanitize_subject (str "abc") = str "abc"
      ∧ sanitize_subject (str "[x" ++ ']' :: str " yz") = (str " yz").drop 1 := by
  refine ⟨sanitize_subject_characterization.1 (str "abc") (by decide),
    sanitize_subject_characterization.2.1 (str "[x") (str " yz") (by decide)⟩

/-! ## Lookup and update lemmas for the threads dictionary -/

lemma lookupSubj_decomp (t : Threads) (s : Str) (v : List Mail)
    (h : lookupSubj t s = some v) :
    ∃ a b, t = a ++ (s, v) :: b ∧ ∀ kv ∈ a, kv.1 ≠ s := by
  induction t with
  | nil => simp [lookupSubj] at h
  | cons kv rest ih =>
      obtain ⟨k2, v2⟩ := kv
      by_cases hk : k2 = s
      · subst hk
        have hv : v2 = v := by simpa [lookupSubj] using h
        subst hv
        exact ⟨[], rest, rfl, by simp⟩
      · have h2 : lookupSubj rest s = some v := by simpa [lookupSubj, hk] using h
        obtain ⟨a, b, heq, ha⟩ := ih h2
        refine ⟨(k2, v2) :: a, b, by rw [heq]; rfl, ?_⟩
        intro x hx
        rcases List.mem_cons.mp hx with rfl | hx2
        · exact hk
        · exact ha x hx2

lemma lookupSubj_append (a rest : Threads) (s : Str) :
    lookupSubj (a ++ rest) s
      = match lookupSubj a s with
        | some v => some v
        | none => lookupSubj rest s := by
  induction a with
  | nil => simp [lookupSubj]
  | cons kv a2 ih => by_cases hk : kv.1 = s <;> simp [lookupSubj, hk, ih]

lemma lookupSubj_eq_none_iff (t : Threads) (s : Str) :
    lookupSubj t s = none ↔ s ∉ t.map Prod.fst := by
  induction t with
  | nil => simp [lookupSubj]
  | cons kv rest ih =>
      by_cases hk : kv.1 = s <;> simp [lookupSubj, hk, ih, Ne.symm, eq_comm]

lemma updateSubj_decomp (a b : Threads) (s : Str) (v w : List Mail)
    (ha : ∀ kv ∈ a, kv.1 ≠ s) :
    updateSubj (a ++ (s, v) :: b) s w = a ++ (s, w) :: b := by
  induction a with
  | nil => simp [updateSubj]
  | cons kv a2 ih =>
      have hk : kv.1 ≠ s := ha kv (List.mem_cons_self kv a2)
      have ha2 : ∀ x ∈ a2, x.1 ≠ s := fun x hx => ha x (List.mem_cons_of_mem _ hx)
      simp [updateSubj, hk, ih ha2]

/-- C5: `append` returns `false` exactly when a mail with the same url is
already stored under the sanitized subject of the item, and then the state
is unchanged; otherwise it returns `true`, the subject now maps to its old
sequence (empty for a new key) with the item appended at the end, every
other key is untouched, and the key order gains the subject at the end
exactly when it is new. -/
theorem threads_append_characterization (t : Threads) (m : Mail) :
    ((Threads.append t m).1 = false
        ↔ ∃ v, lookupSubj t m.subject = some v ∧ ∃ x ∈ v, x.url = m.url)
      ∧ ((Threads.append t m).1 = false → (Threads.append t m).2 = t)
      ∧ ((Threads.append t m).1 = true →
          lookupSubj (Threads.append t m).2 m.subject
              = some ((lookupSubj t m.subject).getD [] ++ [m])
            ∧ (∀ s, s ≠ m.subject →
                lookupSubj (Threads.append t m).2 s = lookupSubj t s)
            ∧ (Threads.append t m).2.map Prod.fst
              = (if m.subject ∈ t.map Prod.fst then t.map Prod.fst
                 else t.map Prod.fst ++ [m.subject])) := by
  rcases h : lookupSubj t m.subject with _ | v
  · have hmem : m.subject ∉ t.map Prod.fst := (lookupSubj_eq_none_iff t m.subject).mp h
    have happ : Threads.append t m = (true, t ++ [(m.subject, [m])]) := by
      simp [Threads.append, h]
    refine ⟨by simp [happ], by simp [happ], fun _ => ⟨?_, ?_, ?_⟩⟩
    · rw [happ]
      show lookupSubj (t ++ [(m.subject, [m])]) m.subject = some [m]
      rw [lookupSubj_append, h]
      simp [lookupSubj]
    · intro s hs
      rw [happ]
      show lookupSubj (t ++ [(m.subject, [m])]) s = lookupSubj t s
      rw [lookupSubj_append]
      rcases h2 : lookupSubj t s with _ | w
      · simp [lookupSubj, Ne.symm hs]
      · simp
    · rw [happ]
      simp [hmem]
  · by_cases hdup : ∃ x ∈ v, x.url = m.url
    · have happ : Threads.append t m = (false, t) := by
        simp [Threads.append, h, hdup]
      refine ⟨?_, by simp [happ], by simp [happ]⟩
      simp [happ]
      exact hdup
    · obtain ⟨a, b, heq, ha⟩ := lookupSubj_decomp t m.subject v h
      have hupd : updateSubj t m.subject (v ++ [m]) = a ++ (m.subject, v ++ [m]) :: b := by
        rw [heq]
        exact updateSubj_decomp a b m.subject v (v ++ [m]) ha
      have hmem : m.subject ∈ t.map Prod.fst := by
        rw [heq]
        simp
      have happ : Threads.append t m = (true, a ++ (m.subject, v ++ [m]) :: b) := by
        simp [Threads.append, h, hdup, hupd]
      have hanone : lookupSubj a m.subject = none :=
        (lookupSubj_eq_none_iff a m.subject).mpr (by
          intro hc
          rcases List.mem_map.mp hc with ⟨kv, hkv, hfst⟩
          exact ha kv hkv hfst)
      refine ⟨by simpa [happ] using hdup, by simp [happ], fun _ => ⟨?_, ?_, ?_⟩⟩
      · rw [happ]
        show lookupSubj (a ++ (m.subject, v ++ [m]) :: b) m.subject = some (v ++ [m])
        rw [lookupSubj_append, hanone]
        simp [lookupSubj]
      · intro s hs
        rw [happ]
        show lookupSubj (a ++ (m.subject, v ++ [m]) :: b) s = lookupSubj t s
        rw [heq, lookupSubj_append, lookupSubj_append]
        rcases h2 : lookupSubj a s with _ | w
        · simp [lookupSubj, Ne.symm hs]
        · simp
      · rw [happ, if_pos hmem]
        show (a ++ (m.subject, v ++ [m]) :: b).map Prod.fst = t.map Prod.fst
        rw [heq]
        simp

/-- C5 (witness): the characterization applied to a fresh collection and a
concrete mail, with the `true` branch discharged. -/
theorem threads_append_characterization_witness :
    lookupSubj (Threads.append [] (Mail.make (str "[T] s") (str "ann") (str "u1"))).2
        (Mail.make (str "[T] s") (str "ann") (str "u1")).subject
      = some ((lookupSubj [] (Mail.make (str "[T] s") (str "ann") (str "u1")).subject).getD []
          ++ [Mail.make (str "[T] s") (str "ann") (str "u1")]) :=
  ((threads_append_characterization [] (Mail.make (str "[T] s") (str "ann") (str "u1"))).2.2
    (by decide)).1


/-- The identity pair of a mail: its (already sanitized) subject and url. -/
def mpair (m : Mail) : Str × Str := (m.subject, m.url)

/-- All (subject, url) pairs stored in a threads state, grouped by key. -/
def storedPairs (t : Threads) : List (Str × Str) :=
  (t.map (fun kv => kv.2.map (fun m => (kv.1, m.url)))).flatten

lemma count_mails_eq_length_storedPairs (t : Threads) :
    t.count_mails = (storedPairs t).length := by
  induction t with
  | nil => rfl
  | cons kv rest ih =>
      simp [Threads.count_mails, storedPairs] at ih ⊢
      omega

lemma mem_storedPairs_iff (t : Threads) (k : Str) (u : Str) :
    (k, u) ∈ storedPairs t ↔ ∃ w, (k, w) ∈ t ∧ ∃ x ∈ w, x.url = u := by
  simp only [storedPairs, List.mem_flatten, List.mem_map]
  constructor
  · rintro ⟨l, ⟨kv, hkv, rfl⟩, hl⟩
    rcases List.mem_map.mp hl with ⟨x, hx, hxe⟩
    simp only [Prod.mk.injEq] at hxe
    obtain ⟨h1, h2⟩ := hxe
    refine ⟨kv.2, ?_, x, hx, h2⟩
    rw [← h1]
    exact hkv
  · rintro ⟨w, hw, x, hx, hxu⟩
    exact ⟨w.map (fun m => (k, m.url)), ⟨(k, w), hw, rfl⟩,
      List.mem_map.mpr ⟨x, hx, by rw [hxu]⟩⟩

lemma fst_mem_keys_of_mem_storedPairs (t : Threads) (k u : Str)
    (h : (k, u) ∈ storedPairs t) : k ∈ t.map Prod.fst := by
  rcases (mem_storedPairs_iff t k u).mp h with ⟨w, hw, _⟩
  exact List.mem_map.mpr ⟨(k, w), hw, rfl⟩

lemma group_eq_of_nodup_keys (t : Threads) (hkeys : (t.map Prod.fst).Nodup)
    (s : Str) (v w : List Mail) (hv : (s, v) ∈ t) (hw : (s, w) ∈ t) : v = w := by
  induction t with
  | nil => simp at hv
  | cons kv rest ih =>
      have hk2 : (rest.map Prod.fst).Nodup := (List.nodup_cons.mp hkeys).2
      have hk1 : kv.1 ∉ rest.map Prod.fst := (List.nodup_cons.mp hkeys).1
      rcases List.mem_cons.mp hv with rfl | hv2
      · rcases List.mem_cons.mp hw with h | hw2
        · simp only [Prod.mk.injEq] at h
          exact h.2.symm
        · exact absurd (List.mem_map.mpr ⟨(s, w), hw2, rfl⟩) hk1
      · rcases List.mem_cons.mp hw with rfl | hw2
        · exact absurd (List.mem_map.mpr ⟨(s, v), hv2, rfl⟩) hk1
        · exact ih hk2 hv2 hw2

/-- The running invariant of the threads state after appending the mails
whose identity pairs are the distinct members of `P`. -/
def ThreadsInv (t : Threads) (P : List (Str × Str)) : Prop :=
  (t.map Prod.fst).Nodup ∧ (storedPairs t).Nodup
    ∧ ∀ x, x ∈ storedPairs t ↔ x ∈ P

lemma storedPairs_append (t1 t2 : Threads) :
    storedPairs (t1 ++ t2) = storedPairs t1 ++ storedPairs t2 := by
  simp [storedPairs]

lemma storedPairs_cons (s : Str) (w : List Mail) (b : Threads) :
    storedPairs ((s, w) :: b) = w.map (fun x => (s, x.url)) ++ storedPairs b := rfl

lemma threadsInv_step (t : Threads) (P : List (Str × Str)) (m : Mail)
    (h : ThreadsInv t P) : ThreadsInv (Threads.append t m).2 (P ++ [mpair m]) := by
  obtain ⟨hkeys, hnd, hmem⟩ := h
  rcases hl : lookupSubj t m.subject with _ | v
  · -- fresh subject key, appended at the end of the dict
    have hnk : m.subject ∉ t.map Prod.fst := (lookupSubj_eq_none_iff t m.subject).mp hl
    have happ : (Threads.append t m).2 = t ++ [(m.subject, [m])] := by
      simp [Threads.append, hl]
    have hsp : storedPairs (t ++ [(m.subject, [m])]) = storedPairs t ++ [mpair m] := by
      rw [storedPairs_append]
      rfl
    have hpnot : mpair m ∉ storedPairs t := fun hc =>
      hnk (fst_mem_keys_of_mem_storedPairs t m.subject m.url hc)
    rw [ThreadsInv, happ, hsp]
    refine ⟨?_, ?_, ?_⟩
    · rw [List.map_append]
      simp [List.nodup_append, hkeys, hnk]
    · simp [List.nodup_append, hnd, hpnot]
    · intro x
      simp [hmem x]
  · by_cases hdup : ∃ x ∈ v, x.url = m.url
    · -- duplicate: state unchanged, pair already present
      have happ : (Threads.append t m).2 = t := by simp [Threads.append, hl, hdup]
      have hp : mpair m ∈ storedPairs t := by
        obtain ⟨x, hx, hu⟩ := hdup
        obtain ⟨a, b, heq, ha⟩ := lookupSubj_decomp t m.subject v hl
        have hvt : (m.subject, v) ∈ t := by
          rw [heq]
          simp
        exact (mem_storedPairs_iff t m.subject m.url).mpr ⟨v, hvt, x, hx, hu⟩
      rw [ThreadsInv, happ]
      refine ⟨hkeys, hnd, fun x => ?_⟩
      constructor
      · intro hx
        exact List.mem_append.mpr (Or.inl ((hmem x).mp hx))
      · intro hx
        rcases List.mem_append.mp hx with hx1 | hx2
        · exact (hmem x).mpr hx1
        · rw [List.mem_singleton.mp hx2]
          exact hp
    · -- fresh url under an existing subject: in-place append
      obtain ⟨a, b, heq, ha⟩ := lookupSubj_decomp t m.subject v hl
      have happ : (Threads.append t m).2 = a ++ (m.subject, v ++ [m]) :: b := by
        have := updateSubj_decomp a b m.subject v (v ++ [m]) ha
        simp [Threads.append, hl, hdup]
        rw [heq]
        exact this
      have hkeq : (a ++ (m.subject, v ++ [m]) :: b).map Prod.fst = t.map Prod.fst := by
        rw [heq]
        simp
      have hspt : storedPairs t
          = storedPairs a ++ (v.map (fun x => (m.subject, x.url)) ++ storedPairs b) := by
        rw [heq, storedPairs_append, storedPairs_cons]
      have hspt2 : storedPairs (a ++ (m.subject, v ++ [m]) :: b)
          = storedPairs a
            ++ (v.map (fun x => (m.subject, x.url)) ++ (mpair m :: storedPairs b)) := by
        rw [storedPairs_append, storedPairs_cons, List.map_append]
        simp [mpair]
      have hperm : List.Perm (storedPairs (a ++ (m.subject, v ++ [m]) :: b))
          (mpair m :: storedPairs t) := by
        rw [hspt2, hspt]
        exact (List.perm_middle.append_left (storedPairs a)).trans List.perm_middle
      have hpnot : mpair m ∉ storedPairs t := by
        intro hc
        rcases (mem_storedPairs_iff t m.subject m.url).mp hc with ⟨w, hw, x, hx, hu⟩
        have hvt : (m.subject, v) ∈ t := by
          rw [heq]
          simp
        have : w = v := group_eq_of_nodup_keys t hkeys m.subject w v hw hvt
        subst this
        exact hdup ⟨x, hx, hu⟩
      rw [ThreadsInv, happ]
      refine ⟨by rw [hkeq]; exact hkeys, ?_, fun x => ?_⟩
      · exact (hperm.nodup_iff).mpr (List.nodup_cons.mpr ⟨hpnot, hnd⟩)
      · rw [hperm.mem_iff]
        simp [hmem x, or_comm]

lemma threadsInv_appendList (l : List Mail) (t : Threads) (P : List (Str × Str))
    (h : ThreadsInv t P) : ThreadsInv (appendList t l) (P ++ l.map mpair) := by
  induction l generalizing t P with
  | nil => simpa [appendList] using h
  | cons m rest ih =>
      have h2 := ih (Threads.append t m).2 (P ++ [mpair m]) (threadsInv_step t P m h)
      simpa [appendList] using h2

/-- C4: after any sequence of appends to a fresh collection, no two stored
mails under one sanitized-subject group share a url; `count_mails()` equals
the number of distinct (sanitized subject, url) identity pairs among the
appended items (i.e. distinct urls per group, summed over groups); and an
append whose identity pair is already stored never changes `count_mails()`. -/
theorem threads_url_dedup_invariant :
    (∀ (l : List Mail), ∀ kv ∈ appendList [] l, (kv.2.map Mail.url).Nodup)
      ∧ (∀ l : List Mail,
          Threads.count_mails (appendList [] l) = ((l.map mpair).dedup).length)
      ∧ (∀ (t : Threads) (m : Mail),
          (∃ v, lookupSubj t m.subject = some v ∧ ∃ x ∈ v, x.url = m.url) →
          Threads.count_mails (Threads.append t m).2 = Threads.count_mails t) := by
  have base : ∀ l : List Mail, ThreadsInv (appendList [] l) (l.map mpair) := by
    intro l
    have h0 : ThreadsInv ([] : Threads) [] := by
      refine ⟨by simp, by simp [storedPairs], by simp [storedPairs]⟩
    simpa using threadsInv_appendList l [] [] h0
  refine ⟨?_, ?_, ?_⟩
  · intro l kv hkv
    obtain ⟨hkeys, hnd, hmem⟩ := base l
    simp only [storedPairs] at hnd
    have h1 := (List.nodup_flatten.mp hnd).1 (kv.2.map (fun m => (kv.1, m.url)))
      (List.mem_map.mpr ⟨kv, hkv, rfl⟩)
    have heq2 : kv.2.map (fun m => (kv.1, m.url))
        = (kv.2.map Mail.url).map (fun u => (kv.1, u)) := by
      simp [List.map_map, Function.comp]
    rw [heq2] at h1
    exact h1.of_map
  · intro l
    obtain ⟨hkeys, hnd, hmem⟩ := base l
    rw [count_mails_eq_length_storedPairs]
    have h1 : (storedPairs (appendList [] l)).toFinset = (l.map mpair).toFinset := by
      ext x
      simp only [List.mem_toFinset]
      exact hmem x
    calc (storedPairs (appendList [] l)).length
        = (storedPairs (appendList [] l)).toFinset.card :=
          (List.toFinset_card_of_nodup hnd).symm
      _ = (l.map mpair).toFinset.card := by rw [h1]
      _ = ((l.map mpair).dedup).length := List.card_toFinset _
  · rintro t m ⟨v, hl, hdup⟩
    have happ : Threads.append t m = (false, t) := by simp [Threads.append, hl, hdup]
    rw [happ]

/-- C4 (witness): the invariant applied to a one-mail history and a
duplicate append onto a concrete state. -/
theorem threads_url_dedup_invariant_witness :
    (((str "s", [Mail.make (str "s") (str "a") (str "u")]).2.map Mail.url).Nodup)
      ∧ Threads.count_mails
          (Threads.append [(str "s", [Mail.make (str "s") (str "a") (str "u")])]
            (Mail.make (str "s") (str "b") (str "u"))).2
        = Threads.count_mails [(str "s", [Mail.make (str "s") (str "a") (str "u")])] :=
  ⟨threads_url_dedup_invariant.1 [Mail.make (str "s") (str "a") (str "u")]
      (str "s", [Mail.make (str "s") (str "a") (str "u")]) (by decide),
    threads_url_dedup_invariant.2.2 [(str "s", [Mail.make (str "s") (str "a") (str "u")])]
      (Mail.make (str "s") (str "b") (str "u"))
      ⟨[Mail.make (str "s") (str "a") (str "u")], by decide⟩⟩

/-- One subject block of `render_text`, with the items rendered in the
order given. -/
def renderBlock (k : Str) (ms : List Mail) : Str :=
  k ++ str ":\n" ++ (ms.map mailTextLine).flatten ++ str "\n"

lemma appendList_same_subject (ms : List Mail) (s : Str) (acc : List Mail)
    (hsub : ∀ m ∈ ms, m.subject = s)
    (hacc : ∀ m ∈ ms, m.url ∉ acc.map Mail.url)
    (hnd : (ms.map Mail.url).Nodup) :
    appendList [(s, acc)] ms = [(s, acc ++ ms)] := by
  induction ms generalizing acc with
  | nil => simp [appendList]
  | cons m rest ih =>
      have hs : m.subject = s := hsub m (List.mem_cons_self m rest)
      have hlook : lookupSubj [(s, acc)] m.subject = some acc := by
        simp [lookupSubj, hs]
      have hnin : ¬ ∃ x ∈ acc, x.url = m.url := by
        rintro ⟨x, hx, hu⟩
        exact hacc m (List.mem_cons_self m rest) (List.mem_map.mpr ⟨x, hx, hu⟩)
      have happ : Threads.append [(s, acc)] m = (true, [(s, acc ++ [m])]) := by
        simp [Threads.append, lookupSubj, hs, hnin, updateSubj]
      have hstep : appendList [(s, acc)] (m :: rest)
          = appendList [(s, acc ++ [m])] rest := by
        have e1 : appendList [(s, acc)] (m :: rest)
            = appendList (Threads.append [(s, acc)] m).2 rest := rfl
        rw [e1, happ]
      rw [hstep]
      have hnd2 : (rest.map Mail.url).Nodup := (List.nodup_cons.mp hnd).2
      have hmnotin : m.url ∉ rest.map Mail.url := (List.nodup_cons.mp hnd).1
      have hacc2 : ∀ x ∈ rest, x.url ∉ (acc ++ [m]).map Mail.url := by
        intro x hx
        rw [List.map_append]
        intro hmem2
        rcases List.mem_append.mp hmem2 with h1 | h2
        · exact hacc x (List.mem_cons_of_mem m hx) h1
        · have : x.url = m.url := by simpa using h2
          exact hmnotin (this ▸ List.mem_map.mpr ⟨x, hx, rfl⟩)
      have := ih (acc ++ [m]) (fun x hx => hsub x (List.mem_cons_of_mem m hx)) hacc2 hnd2
      rw [this, List.append_assoc]
      rfl

/-- C7: `render_text` visits subject groups in reverse insertion order and
the items of each group in reverse append order: the output equals the
flattening, in reversed group order, of forward-order blocks built from each
reversed item list; in particular a same-subject history A, B, C yields one
block whose lines are C, B, A. -/
theorem render_text_reverse_order :
    (∀ t : Threads,
        Threads.render_text t
          = ((t.map (fun kv => renderBlock kv.1 kv.2.reverse)).reverse).flatten)
      ∧ (∀ (m0 : Mail) (ms : List Mail) (s : Str),
          (∀ m ∈ m0 :: ms, m.subject = s) →
          ((m0 :: ms).map Mail.url).Nodup →
          Threads.render_text (appendList [] (m0 :: ms))
            = renderBlock s ((m0 :: ms).reverse)) := by
  constructor
  · intro t
    simp [Threads.render_text, renderBlock, List.map_reverse]
  · intro m0 ms s hsub hnd
    have h0 : Threads.append [] m0 = (true, [(m0.subject, [m0])]) := rfl
    have hstep : appendList [] (m0 :: ms) = appendList [(s, [m0])] ms := by
      have e1 : appendList [] (m0 :: ms) = appendList (Threads.append [] m0).2 ms := rfl
      rw [e1, h0, hsub m0 (List.mem_cons_self m0 ms)]
    have hacc : ∀ m ∈ ms, m.url ∉ ([m0].map Mail.url) := by
      intro m hm hmem2
      have : m.url = m0.url := by simpa using hmem2
      exact (List.nodup_cons.mp hnd).1 (this ▸ List.mem_map.mpr ⟨m, hm, rfl⟩)
    have hrest := appendList_same_subject ms s [m0]
      (fun m hm => hsub m (List.mem_cons_of_mem m0 hm)) hacc (List.nodup_cons.mp hnd).2
    rw [hstep, hrest]
    simp [Threads.render_text, renderBlock]

/-- C7 (witness): three mails with a common sanitized subject, appended in
order A, B, C, render as a single block listing C, then B, then A. -/
theorem render_text_reverse_order_witness :
    Threads.render_text (appendList []
        [Mail.make (str "[L] topic") (str "ann") (str "u1"),
         Mail.make (str "[L] topic") (str "bob") (str "u2"),
         Mail.make (str "topic") (str "cee") (str "u3")])
      = renderBlock (str "topic")
          [Mail.make (str "topic") (str "cee") (str "u3"),
           Mail.make (str "[L] topic") (str "bob") (str "u2"),
           Mail.make (str "[L] topic") (str "ann") (str "u1")] := by
  have h := render_text_reverse_order.2
    (Mail.make (str "[L] topic") (str "ann") (str "u1"))
    [Mail.make (str "[L] topic") (str "bob") (str "u2"),
     Mail.make (str "topic") (str "cee") (str "u3")]
    (str "topic") (by decide) (by decide)
  simpa using h

lemma lt_not_mem_escapeChar (c : Char) : '<' ∉ escapeChar c := by
  unfold escapeChar
  split_ifs with h1 h2 h3 h4 h5
  · decide
  · decide
  · decide
  · decide
  · decide
  · simp only [List.mem_singleton]
    exact fun h => h2 h.symm

lemma lt_not_mem_htmlEscape (s : Str) : '<' ∉ htmlEscape s := by
  intro h
  rcases List.mem_flatten.mp h with ⟨l, hl, hc⟩
  rcases List.mem_map.mp hl with ⟨c, _, rfl⟩
  exact lt_not_mem_escapeChar c hc

lemma infix_of_mem_joinSep (sep : Str) (L : List Str) (x : Str) (h : x ∈ L) :
    x <:+: joinSep sep L := by
  induction L with
  | nil => simp at h
  | cons y rest ih =>
      rcases rest with _ | ⟨z, rest2⟩
      · have : x = y := by simpa using h
        subst this
        exact List.infix_rfl
      · rcases List.mem_cons.mp h with rfl | h2
        · exact ((List.prefix_append x (sep ++ joinSep sep (z :: rest2))).trans
            (by rw [joinSep, List.append_assoc])).isInfix
        · exact ((ih h2).trans ((List.suffix_append (y ++ sep)
            (joinSep sep (z :: rest2))).trans (by rw [joinSep, List.append_assoc])).isInfix)

lemma mailHtmlLine_infix_html (cap : Str → Str) (dash : Str) (t : Threads)
    (k : Str) (v : List Mail) (m : Mail) (hkv : (k, v) ∈ t) (hm : m ∈ v) :
    mailHtmlLine m <:+: Threads.html cap dash t := by
  have h1 : (k, v) ∈ t.reverse := List.mem_reverse.mpr hkv
  have h2 := List.mem_map_of_mem
    (fun kv : Str × List Mail =>
      dash ++ str " <b>" ++ cap kv.1 ++ str "</b>\n"
        ++ (kv.2.reverse.map mailHtmlLine).flatten) h1
  have h3 := List.infix_of_mem_flatten h2
  have h4 : mailHtmlLine m <:+: dash ++ str " <b>" ++ cap k ++ str "</b>\n"
      ++ (v.reverse.map mailHtmlLine).flatten := by
    have h5 := List.infix_of_mem_flatten
      (List.mem_map_of_mem mailHtmlLine (List.mem_reverse.mpr hm))
    exact h5.trans (List.suffix_append
      (dash ++ str " <b>" ++ cap k ++ str "</b>\n") _).isInfix
  exact h4.trans h3

lemma mailTextLine_infix_text (t : Threads) (k : Str) (v : List Mail) (m : Mail)
    (hkv : (k, v) ∈ t) (hm : m ∈ v) :
    mailTextLine m <:+: Threads.render_text t := by
  have h1 : (k, v) ∈ t.reverse := List.mem_reverse.mpr hkv
  have h2 := List.mem_map_of_mem
    (fun kv : Str × List Mail =>
      kv.1 ++ str ":\n" ++ (kv.2.reverse.map mailTextLine).flatten ++ str "\n") h1
  have h3 := List.infix_of_mem_flatten h2
  have h4 : mailTextLine m <:+: k ++ str ":\n"
      ++ (v.reverse.map mailTextLine).flatten ++ str "\n" := by
    have h5 := List.infix_of_mem_flatten
      (List.mem_map_of_mem mailTextLine (List.mem_reverse.mpr hm))
    exact h5.trans ⟨k ++ str ":\n", str "\n", rfl⟩
  exact h4.trans h3

/-- C8: for a mail stored under some subject group whose author contains
`<` or `&`, `render_html` contains the item line with the author
HTML-escaped as anchor text (and the escape output never contains a raw
`<`), while `render_text` contains the item line with the author verbatim. -/
theorem threads_html_escapes_author (cap : Str → Str) (dash : Str) (t : Threads)
    (k : Str) (v : List Mail) (m : Mail) (hkv : (k, v) ∈ t) (hm : m ∈ v)
    (hspecial : '<' ∈ m.author ∨ '&' ∈ m.author) :
    mailHtmlLine m <:+: Threads.html cap dash t
      ∧ mailTextLine m <:+: Threads.render_text t
      ∧ '<' ∉ htmlEscape m.author :=
  ⟨mailHtmlLine_infix_html cap dash t k v m hkv hm,
    mailTextLine_infix_text t k v m hkv hm,
    lt_not_mem_htmlEscape m.author⟩

/-- C8 (witness): a concrete collection holding one mail whose author is
`a<b&c`. -/
theorem threads_html_escapes_author_witness :
    mailHtmlLine ⟨str "s", str "a<b&c", str "u"⟩
        <:+: Threads.html (fun x => x) (str "-") [(str "s", [⟨str "s", str "a<b&c", str "u"⟩])]
      ∧ mailTextLine ⟨str "s", str "a<b&c", str "u"⟩
        <:+: Threads.render_text [(str "s", [⟨str "s", str "a<b&c", str "u"⟩])]
      ∧ '<' ∉ htmlEscape (Mail.author ⟨str "s", str "a<b&c", str "u"⟩) :=
  threads_html_escapes_author (fun x => x) (str "-") [(str "s", [⟨str "s", str "a<b&c", str "u"⟩])]
    (str "s") [⟨str "s", str "a<b&c", str "u"⟩] ⟨str "s", str "a<b&c", str "u"⟩
    (by decide) (by decide) (by decide)

/-- C10: `Article.html` splices the title verbatim into the anchor text, and
so does `Feed.render_html` for every stored article, whereas `Post.html`
splices the HTML-escaped title; the escaped form never contains a raw `<`,
so a title containing `<` appears verbatim only in the article renderings. -/
theorem article_title_unescaped (a : Article) (dash : Str) (f : Feed) (hf : a ∈ f.feed)
    (hspecial : '<' ∈ a.title ∨ '&' ∈ a.title) :
    a.title <:+: a.html
      ∧ a.title <:+: Feed.html dash f
      ∧ (∀ p : Post, htmlEscape p.title <:+: p.html)
      ∧ '<' ∉ htmlEscape a.title := by
  have htitle : a.title <:+: a.html := by
    refine ⟨str "<a href=\"" ++ a.url ++ str "\">",
      str "</a>\n    ⌚ " ++ strftimeHM a.date, ?_⟩
    simp [Article.html]
  refine ⟨htitle, ?_, ?_, lt_not_mem_htmlEscape a.title⟩
  · have h1 : (dash ++ str " " ++ a.html)
        ∈ f.feed.map (fun x => dash ++ str " " ++ x.html) :=
      List.mem_map_of_mem _ hf
    have h2 := infix_of_mem_joinSep (str "\n") _ _ h1
    have h3 : a.html <:+: dash ++ str " " ++ a.html :=
      (List.suffix_append (dash ++ str " ") a.html).isInfix
    exact (htitle.trans h3).trans h2
  · intro p
    refine ⟨str "<a href=\"" ++ p.url ++ str "\">", str "</a>"
      ++ (match p.comments with
          | some c => str " (<a href=\"" ++ c ++ str "\">comments</a>)"
          | none => []), ?_⟩
    simp [Post.html]

/-- C10 (witness): a concrete feed holding one article titled `x<y`. -/
theorem article_title_unescaped_witness :
    Article.title ⟨str "x<y", str "d", str "u", ⟨2017, 4, 1, 10, 0, 0⟩⟩
        <:+: Article.html ⟨str "x<y", str "d", str "u", ⟨2017, 4, 1, 10, 0, 0⟩⟩
      ∧ Article.title ⟨str "x<y", str "d", str "u", ⟨2017, 4, 1, 10, 0, 0⟩⟩
        <:+: Feed.html (str "-")
          ⟨str "f", [⟨str "x<y", str "d", str "u", ⟨2017, 4, 1, 10, 0, 0⟩⟩]⟩
      ∧ (∀ p : Post, htmlEscape p.title <:+: p.html)
      ∧ '<' ∉ htmlEscape (Article.title ⟨str "x<y", str "d", str "u", ⟨2017, 4, 1, 10, 0, 0⟩⟩) :=
  article_title_unescaped ⟨str "x<y", str "d", str "u", ⟨2017, 4, 1, 10, 0, 0⟩⟩ (str "-")
    ⟨str "f", [⟨str "x<y", str "d", str "u", ⟨2017, 4, 1, 10, 0, 0⟩⟩]⟩
    (by decide) (by decide)
